import Mathlib

/-!
A shallow embedding of the core of `pessimist` (src/pessimist/manager.py):
the version catalog built in `Manager.__init__`, the plan generators
`get_max_plan` / `get_min_plan` / `get_intermediate_plans`, the worker body
(`Manager.solve.runner`) and the aggregation loop of `Manager.solve`.

Versions are modelled as naturals (the source only needs an orderable,
equality-comparable token).  Python dicts are modelled as association lists
(`List (String × _)`): assignment replaces an existing key in place and
appends fresh keys at the end, exactly like insertion-ordered dicts.
External collaborators (the registry, the constraint evaluator, the
environment) enter as parameters: the registry is a function from a name to
its ordered release list, a parsed requirement carries its name, the result
of evaluating its environment marker, and its constraint filter as a
predicate on versions.
-/

abbrev Version := Nat

abbrev VersionMap := List (String × Version)

abbrev Catalog := List (String × List Version)

/-- Lookup in an association list keyed by strings (Python `d[k]` / `k in d`). -/
def lookupKey {α : Type} : List (String × α) → String → Option α
  | [], _ => none
  | (k, v) :: rest, q => if k = q then some v else lookupKey rest q

/-- Python dict assignment `d[k] = v`: replace the key in place when present,
append it at the end otherwise. -/
def setKey {α : Type} : List (String × α) → String → α → List (String × α)
  | [], k, v => [(k, v)]
  | (k', v') :: rest, k, v =>
      if k' = k then (k, v) :: rest else (k', v') :: setKey rest k v

/-- Python truthiness of an `Optional[str]`: `None` and `""` are falsy. -/
def pyTruthyStr : Option String → Bool
  | none => false
  | some s => ¬ s.isEmpty

/-- `Plan` dataclass of manager.py. -/
structure Plan where
  title : String
  versions : VersionMap
  fatal : Bool
  name : Option String := none
  version : Option Version := none
deriving DecidableEq, Repr

/-- `Result` dataclass of manager.py (`exception` holds `str(e)` of a caught
exception, `None` on success). -/
structure Result where
  item : Plan
  exception : Option String
  output : String
deriving DecidableEq, Repr

/-- `Manager.get_max_plan`: every name mapped to the last element of its
candidate list, fatal, titled "max". -/
def getMaxPlan (vs : Catalog) : Plan :=
  { title := "max"
    versions := vs.map fun p => (p.1, p.2.getLastD 0)
    fatal := true }

/-- `Manager.get_min_plan`: every name mapped to the first element of its
candidate list, fatal, titled "min". -/
def getMinPlan (vs : Catalog) : Plan :=
  { title := "min"
    versions := vs.map fun p => (p.1, p.2.headD 0)
    fatal := true }

/-- `Manager.get_intermediate_plans`: for every name and every candidate in
`versions[:-1]`, the max assignment with that one name overridden, non-fatal,
carrying the probed (name, version) pair. -/
def getIntermediatePlans (vs : Catalog) : List Plan :=
  let maxVers := (getMaxPlan vs).versions
  vs.flatMap fun p =>
    p.2.dropLast.map fun v =>
      { title := s!"{p.1}:{v}"
        versions := setKey maxVers p.1 v
        fatal := false
        name := some p.1
        version := some v }

/-- The `min_versions` update of `Manager.solve` (lines 304-311): a fresh
(name, version) is inserted, an existing entry is replaced by the minimum of
the old and the new version. -/
def recordSuccess (m : VersionMap) (k : String) (v : Version) : VersionMap :=
  match lookupKey m k with
  | some w => setKey m k (min w v)
  | none => setKey m k v

/-- The inconsistency test of `Manager.solve` (lines 290-295), evaluated on a
failed result: it fires when the failed plan probes a (name, version) and a
version recorded as passing for that name is strictly below the failed one. -/
def inconsistentCheck (m : VersionMap) (r : Result) : Bool :=
  match r.item.name, r.item.version with
  | some k, some v =>
      match lookupKey m k with
      | some w => w < v
      | none => false
  | _, _ => false

/-- Aggregator state of the `while outstanding` loop of `Manager.solve`:
outstanding result count, the cooperative cancellation flag, the pending
return value, the minimal-version map, and the number of inconsistency
warnings logged so far. -/
structure LoopState where
  outstanding : Nat
  cancel : Bool
  rv : Nat
  minv : VersionMap
  warnings : Nat
deriving DecidableEq, Repr

/-- One iteration body of the aggregation loop (lines 285-311): a failed
result may log an inconsistency warning and, when fatal, sets the
cancellation flag and return value 1; a successful result of a probing plan
feeds the minimal-version map.  (On a successful probing result the source
asserts that the version is present; plans produced by the generators always
carry name and version together, so the `none` fallthrough keeps the state.) -/
def processResult (s : LoopState) (r : Result) : LoopState :=
  if pyTruthyStr r.exception then
    let s' := { s with
      warnings := s.warnings + (if inconsistentCheck s.minv r then 1 else 0) }
    if r.item.fatal then { s' with cancel := true, rv := 1 } else s'
  else
    match r.item.name with
    | some k =>
        if k.isEmpty then s
        else
          match r.item.version with
          | some v => { s with minv := recordSuccess s.minv k v }
          | none => s
    | none => s

/-- Outcome of the `while outstanding and not should_cancel` loop, driven by
the sequence of results the result channel yields: the final state, the part
of the stream not consumed, the results actually received, and whether the
loop would block forever on an empty channel. -/
structure LoopOut where
  state : LoopState
  rest : List Result
  recvd : List Result
  blocked : Bool
deriving DecidableEq, Repr

/-- The aggregation loop (lines 282-311).  `stream` is the sequence of
results `results.get` returns over time; completion order of the workers is
unconstrained, so the stream is a parameter. -/
def mainLoop (s : LoopState) : List Result → LoopOut
  | [] => ⟨s, [], [], decide (0 < s.outstanding) && !s.cancel⟩
  | r :: rest =>
      if s.outstanding = 0 ∨ s.cancel then ⟨s, r :: rest, [], false⟩
      else
        let o := mainLoop (processResult { s with outstanding := s.outstanding - 1 } r) rest
        { o with recvd := r :: o.recvd }

/-- The phase-3 joint-verification plan (lines 318-321): the max assignment
updated by every entry of the minimal-version map, fatal, titled "min". -/
def jointPlan (vs : Catalog) (minv : VersionMap) : Plan :=
  { title := "min"
    versions := minv.foldl (fun m p => setKey m p.1 p.2) (getMaxPlan vs).versions
    fatal := true }

/-- The suggestion loop on joint-verification success (lines 329-335): the
entries of the minimal-version map whose version differs from the first
element of that name's catalog candidate list.  "Everything is fine." is
printed exactly when this list is empty. -/
def narrowingSuggestions (vs : Catalog) (minv : VersionMap) : VersionMap :=
  minv.filter fun p => ((lookupKey vs p.1).getD []).headD 0 != p.2

/-- Queue events of one `solve` run: a `queue.put` of a plan, or a
`results.get` returning a result. -/
inductive Event
  | dispatch (p : Plan)
  | receive (r : Result)
deriving DecidableEq, Repr

/-- Observable outcome of one `solve` run: the dispatch/receive trace, the
return value (`none` when the run blocks forever waiting on the result
channel), the result consumed by the phase-3 `results.get` if reached, the
suggestion list on joint-verification success, and the final
minimal-version map. -/
structure SolveOut where
  events : List Event
  rv : Option Nat
  phase3 : Option Result
  suggestions : Option VersionMap
  minvFinal : VersionMap
deriving DecidableEq, Repr

/-- The post-loop part of `Manager.solve` (lines 313-343), applied to the
aggregation loop's outcome `o` with `evs` the trace so far: when a run is not
in fast mode and found at least one minimal version, the joint plan is
enqueued and one more result is consumed from the channel; its failure sets
return value 2, its success yields the narrowing suggestions.  A blocked run
(the loop, or the phase-3 `results.get`, waiting forever) has no return
value. -/
def solvePhase3 (vs : Catalog) (fast : Bool) (evs : List Event) (o : LoopOut) : SolveOut :=
  if o.blocked then ⟨evs, none, none, none, o.state.minv⟩
  else if ¬ fast ∧ o.state.minv ≠ [] then
    let jp := jointPlan vs o.state.minv
    match o.rest with
    | [] => ⟨evs ++ [Event.dispatch jp], none, none, none, o.state.minv⟩
    | r :: _ =>
        if pyTruthyStr r.exception then
          ⟨evs ++ [Event.dispatch jp, Event.receive r], some 2, some r, none, o.state.minv⟩
        else
          ⟨evs ++ [Event.dispatch jp, Event.receive r], some o.state.rv, some r,
            some (narrowingSuggestions vs o.state.minv), o.state.minv⟩
  else ⟨evs, some o.state.rv, none, none, o.state.minv⟩

/-- `Manager.solve` (lines 177-343), with the worker pool abstracted into the
result stream: the max plan and the phase-2 plans (the min plan in fast mode,
every intermediate plan otherwise) are enqueued up front, then the
aggregation loop consumes the stream, then `solvePhase3` finishes the run. -/
def solveModel (vs : Catalog) (fast : Bool) (stream : List Result) : SolveOut :=
  let phase2 : List Plan := if fast then [getMinPlan vs] else getIntermediatePlans vs
  let dispatched : List Plan := getMaxPlan vs :: phase2
  let o := mainLoop ⟨dispatched.length, false, 0, [], 0⟩ stream
  solvePhase3 vs fast (dispatched.map Event.dispatch ++ o.recvd.map Event.receive) o

/-- The plans enqueued before the first result is received: the longest
all-dispatch prefix of the event trace. -/
def dispatchBeforeFirstReceive (evs : List Event) : List Plan :=
  (evs.takeWhile fun e => match e with | .dispatch _ => true | .receive _ => false).filterMap
    fun e => match e with | .dispatch p => some p | .receive _ => none

/-! ### Worker body (`Manager.solve.runner`, lines 205-255) -/

/-- Outcome of invoking one subprocess step (`subprocess.run`): either the
process ran and yielded a return code and combined captured output, or the
invocation itself raised an exception. -/
inductive StepOut
  | ran (returncode : Int) (stdout : String)
  | raised (msg : String)
deriving DecidableEq, Repr, Inhabited

/-- The `$ pip install k==v ...` line echoed into the captured output before
the install step runs.  (The interpreter path of the worker's private
environment is environment-dependent and out of the claims' scope; the model
writes a fixed placeholder for it.) -/
def installCmd (item : Plan) : String :=
  "$ " ++ String.intercalate " "
    (["python", "-m", "pip", "install"] ++ item.versions.map fun p => s!"{p.1}=={p.2}")

/-- Execution of one plan by a worker (lines 216-254): install, then the test
command, accumulating captured output; any non-zero exit or raised exception
is caught and converted into a `Result` with an error description, success
yields a `Result` without one.  Exactly one `Result` is returned. -/
def runPlan (command : String) (item : Plan) (inst test : StepOut) : Result :=
  let out0 := installCmd item
  match inst with
  | .raised m => ⟨item, some m, out0⟩
  | .ran rc o =>
      let out1 := out0 ++ o
      if rc ≠ 0 then ⟨item, some "Install failed", out1⟩
      else
        let out2 := out1 ++ s!"$ {command}\n"
        match test with
        | .raised m => ⟨item, some m, out2⟩
        | .ran rc2 o2 =>
            let out3 := out2 ++ o2
            if rc2 ≠ 0 then ⟨item, some "Test failed", out3⟩ else ⟨item, none, out3⟩

/-- The worker loop (lines 205-255), driven by the sequence of items
`queue.get` returns (`none` is the shutdown sentinel), the value of the
shared cancellation flag observed at each iteration, and the subprocess
outcomes of each executed plan.  Returns the results the worker puts on the
result channel, in order. -/
def workerLoop (command : String) :
    List (Option Plan) → List Bool → List (StepOut × StepOut) → List Result
  | [], _, _ => []
  | none :: _, _, _ => []
  | some p :: rest, cs, os =>
      if cs.headD false then []
      else
        runPlan command p (os.headD default).1 (os.headD default).2 ::
          workerLoop command rest cs.tail os.tail

/-- The plans a worker actually dequeues from the work queue under the same
item sequence and cancellation-flag schedule: the loop stops dequeuing at the
sentinel, and a plan dequeued while the flag is set is the last one taken. -/
def dequeuedPlans : List (Option Plan) → List Bool → List Plan
  | [], _ => []
  | none :: _, _ => []
  | some p :: rest, cs =>
      if cs.headD false then [p] else p :: dequeuedPlans rest cs.tail

/-- The plans a worker dequeues while the cancellation flag is unset, under
the same item sequence and flag schedule: exactly the plans the loop goes on
to execute — a plan dequeued with the flag set is not among them. -/
def startedPlans : List (Option Plan) → List Bool → List Plan
  | [], _ => []
  | none :: _, _ => []
  | some p :: rest, cs =>
      if cs.headD false then [] else p :: startedPlans rest cs.tail

/-! ### Catalog construction (`Manager.__init__`, lines 44-144) -/

/-- A parsed requirement as the catalog construction consumes it: its
canonicalized name, whether its environment marker holds for the current
platform (evaluated by the external marker collaborator), and its version
constraint as the filter `req.specifier.filter` applies to the registry's
release list. -/
structure Req where
  name : String
  applicable : Bool
  spec : Version → Bool

/-- The candidate list the variable loop selects for a requirement
(lines 112-117): the full registry release list when the name is in the
override list or the override list contains the wildcard, the
constraint-filtered list otherwise. -/
def candidatesFor (registry : String → List Version) (extendL : List String)
    (r : Req) : List Version :=
  if r.name ∈ extendL ∨ "*" ∈ extendL then registry r.name
  else (registry r.name).filter r.spec

/-- The fixed-requirement loop (lines 77-100): skip requirements whose marker
does not hold, fail when the constraint-filtered list is empty, otherwise
keep the singleton of the newest match.  The override list is never
consulted here. -/
def processFixed (registry : String → List Version) (acc : Catalog) :
    List Req → Except String Catalog
  | [] => .ok acc
  | r :: rest =>
      if r.applicable = false then processFixed registry acc rest
      else
        let versions := (registry r.name).filter r.spec
        if versions = [] then .error "no versions match; maybe pre-only?"
        else processFixed registry (setKey acc r.name [versions.getLastD 0]) rest

/-- The variable-requirement loop (lines 102-144): skip requirements whose
marker does not hold, fail when the candidate list is empty, otherwise store
the candidates — trimmed to the two extremes in fast mode when more than one
exists. -/
def processVariable (registry : String → List Version) (extendL : List String)
    (fast : Bool) (acc : Catalog) : List Req → Except String Catalog
  | [] => .ok acc
  | r :: rest =>
      if r.applicable = false then processVariable registry extendL fast acc rest
      else
        let versions := candidatesFor registry extendL r
        if versions = [] then .error "no versions match; maybe pre-only?"
        else
          let vs :=
            if fast then
              if versions.length = 1 then [versions.headD 0]
              else [versions.headD 0, versions.getLastD 0]
            else versions
          processVariable registry extendL fast (setKey acc r.name vs) rest

/-- `Manager.__init__` catalog construction: the fixed loop runs first, then
the variable loop over its accumulated state. -/
def buildVersions (registry : String → List Version) (fixedReqs varReqs : List Req)
    (extendL : List String) (fast : Bool) : Except String Catalog :=
  match processFixed registry [] fixedReqs with
  | .error e => .error e
  | .ok acc => processVariable registry extendL fast acc varReqs

/-- Modelled from the spec: the inconsistency condition exactly as the spec
words it for the probing phase — a failed result whose probed version is
strictly LOWER than the version already recorded as passing for the same
name.  Stated only to be compared against `inconsistentCheck`, which embeds
the source's comparison. -/
def specInconsistent (m : VersionMap) (r : Result) : Bool :=
  match r.item.name, r.item.version with
  | some k, some v =>
      match lookupKey m k with
      | some w => v < w
      | none => false
  | _, _ => false

/-! ### Helper lemmas about association lists -/

theorem lookupKey_setKey {α : Type} (m : List (String × α)) (k q : String) (v : α) :
    lookupKey (setKey m k v) q = if k = q then some v else lookupKey m q := by
  induction m with
  | nil => simp [setKey, lookupKey]
  | cons p rest ih =>
      obtain ⟨k', v'⟩ := p
      by_cases h1 : k' = k
      · subst h1
        simp only [setKey, if_pos rfl, lookupKey]
        by_cases h2 : k' = q <;> simp [h2]
      · simp only [setKey, if_neg h1, lookupKey, ih]
        by_cases h2 : k' = q
        · subst h2
          have : ¬ k = k' := fun h => h1 h.symm
          simp [this]
        · simp [h2]

theorem lookupKey_map {α β : Type} (f : α → β) (m : List (String × α)) (q : String) :
    lookupKey (m.map fun p => (p.1, f p.2)) q = (lookupKey m q).map f := by
  induction m with
  | nil => simp [lookupKey]
  | cons p rest ih =>
      simp only [List.map_cons, lookupKey]
      by_cases h : p.1 = q <;> simp [h, ih]

theorem lookupKey_eq_of_mem {α : Type} {m : List (String × α)} {k : String} {v : α}
    (hnd : (m.map Prod.fst).Nodup) (hm : (k, v) ∈ m) : lookupKey m k = some v := by
  induction m with
  | nil => cases hm
  | cons p rest ih =>
      rcases List.mem_cons.mp hm with h | h
      · rw [← h]
        simp [lookupKey]
      · have h1 : p.1 ≠ k := by
          intro hk
          have : k ∈ rest.map Prod.fst := List.mem_map.mpr ⟨(k, v), h, rfl⟩
          rw [List.map_cons, List.nodup_cons] at hnd
          exact hnd.1 (hk ▸ this)
        simp only [lookupKey, if_neg h1]
        exact ih (List.nodup_cons.mp (by simpa using hnd)).2 h

theorem getLastD_irrel {α : Type} (l : List α) (d d' : α) (h : l ≠ []) :
    l.getLastD d = l.getLastD d' := by
  rw [List.getLastD_eq_getLast?, List.getLastD_eq_getLast?, List.getLast?_eq_getLast l h]
  rfl

theorem chainLt_head_le_getLastD :
    ∀ (t : List Version) (x d : Version), List.Chain' (· < ·) (x :: t) →
      x ≤ (x :: t).getLastD d
  | [], x, d, _ => le_refl x
  | y :: t', x, d, h => by
      have hxy : x < y := (List.chain'_cons.mp h).1
      have ih := chainLt_head_le_getLastD t' y d (List.chain'_cons.mp h).2
      calc x ≤ y := le_of_lt hxy
        _ ≤ (y :: t').getLastD d := ih
        _ = (x :: y :: t').getLastD d := by simp [List.getLastD_cons]

theorem chainLt_mem_dropLast_lt :
    ∀ (l : List Version) (d : Version), List.Chain' (· < ·) l →
      ∀ v ∈ l.dropLast, v < l.getLastD d
  | [], _, _, v, hv => by cases hv
  | [x], _, _, v, hv => by simp at hv
  | x :: y :: t, d, h, v, hv => by
      have hch := List.chain'_cons.mp h
      rw [List.dropLast_cons₂, List.mem_cons] at hv
      have hlast : (x :: y :: t).getLastD d = (y :: t).getLastD d := by
        simp [List.getLastD_cons, getLastD_irrel (y :: t) x d (by simp)]
      rcases hv with rfl | hv
      · rw [hlast]
        exact lt_of_lt_of_le hch.1 (chainLt_head_le_getLastD t y d hch.2)
      · rw [hlast]
        exact chainLt_mem_dropLast_lt (y :: t) d hch.2 v hv

theorem mem_of_mem_dropLast {α : Type} {l : List α} {v : α} (h : v ∈ l.dropLast) :
    v ∈ l := by
  induction l with
  | nil => cases h
  | cons a t ih =>
      cases t with
      | nil => simp at h
      | cons b t' =>
          rw [List.dropLast_cons₂, List.mem_cons] at h
          rcases h with rfl | h
          · exact List.mem_cons_self _ _
          · exact List.mem_cons_of_mem _ (ih h)

/-! ### C3: max and min plans -/

/-- C3: for every catalog, `get_max_plan` assigns each name the last element
of its candidate list with fatal = true and title "max", and `get_min_plan`
assigns each name the first element with fatal = true and title "min". -/
theorem max_min_plan_spec (vs : Catalog) (k : String) (l : List Version)
    (hl : lookupKey vs k = some l) (hne : l ≠ []) :
    (getMaxPlan vs).title = "max" ∧ (getMaxPlan vs).fatal = true ∧
    (getMinPlan vs).title = "min" ∧ (getMinPlan vs).fatal = true ∧
    lookupKey (getMaxPlan vs).versions k = some (l.getLast hne) ∧
    lookupKey (getMinPlan vs).versions k = some (l.head hne) := by
  refine ⟨rfl, rfl, rfl, rfl, ?_, ?_⟩
  · show lookupKey (vs.map fun p => (p.1, p.2.getLastD 0)) k = _
    rw [lookupKey_map (fun t => t.getLastD 0) vs k, hl]
    simp [List.getLastD_eq_getLast?, List.getLast?_eq_getLast l hne]
  · show lookupKey (vs.map fun p => (p.1, p.2.headD 0)) k = _
    rw [lookupKey_map (fun t => t.headD 0) vs k, hl]
    simp [List.headD_eq_head?, List.head?_eq_head hne]

theorem max_min_plan_spec_witness :
    lookupKey (getMaxPlan [("a", [1, 2])]).versions "a" = some 2 ∧
    lookupKey (getMinPlan [("a", [1, 2])]).versions "a" = some 1 := by
  have hne : ([1, 2] : List Version) ≠ [] := by decide
  have h := max_min_plan_spec [("a", [1, 2])] "a" [1, 2] rfl hne
  exact ⟨h.2.2.2.2.1, h.2.2.2.2.2⟩

/-! ### C4: intermediate plans -/

/-- C4: `get_intermediate_plans` returns exactly Σ(candidate count − 1)
plans; every plan is non-fatal, records its probed (name, version), probes a
candidate of that name strictly below the name's maximum, and its versions
map equals the max assignment except at that one name. -/
theorem intermediate_plans_spec (vs : Catalog)
    (hnd : (vs.map Prod.fst).Nodup)
    (hsorted : ∀ p ∈ vs, List.Chain' (· < ·) p.2) :
    (getIntermediatePlans vs).length = ((vs.map fun p => p.2.length - 1).sum) ∧
    ∀ p ∈ getIntermediatePlans vs,
      p.fatal = false ∧
      ∃ k v l, p.name = some k ∧ p.version = some v ∧
        lookupKey vs k = some l ∧ v ∈ l ∧ v < l.getLastD 0 ∧
        lookupKey p.versions k = some v ∧
        ∀ q, q ≠ k → lookupKey p.versions q = lookupKey (getMaxPlan vs).versions q := by
  constructor
  · simp only [getIntermediatePlans, List.length_flatMap, Function.comp]
    congr 1
    apply List.map_congr_left
    intro p _
    simp [List.length_dropLast]
  · intro p hp
    simp only [getIntermediatePlans, List.mem_flatMap] at hp
    obtain ⟨a, ha, hpin⟩ := hp
    obtain ⟨v, hv, rfl⟩ := List.mem_map.mp hpin
    refine ⟨rfl, a.1, v, a.2, rfl, rfl, ?_, ?_, ?_, ?_, ?_⟩
    · exact lookupKey_eq_of_mem hnd (by simpa using ha)
    · exact mem_of_mem_dropLast hv
    · exact chainLt_mem_dropLast_lt a.2 0 (hsorted a ha) v hv
    · show lookupKey (setKey (getMaxPlan vs).versions a.1 v) a.1 = some v
      rw [lookupKey_setKey]
      simp
    · intro q hq
      show lookupKey (setKey (getMaxPlan vs).versions a.1 v) q = _
      rw [lookupKey_setKey, if_neg (fun h => hq h.symm)]

theorem intermediate_plans_spec_witness :
    (getIntermediatePlans [("a", [1, 2]), ("b", [7])]).length
      = (([("a", [1, 2]), ("b", [7])] : Catalog).map fun p => p.2.length - 1).sum :=
  (intermediate_plans_spec [("a", [1, 2]), ("b", [7])] (by decide)
    (by
      simp only [List.mem_cons, List.not_mem_nil, or_false]
      rintro p (rfl | rfl) <;> simp)).1

/-! ### C5: order independence of the minimal-version reduction -/

theorem lookupKey_recordSuccess (m : VersionMap) (k q : String) (v : Version) :
    lookupKey (recordSuccess m k v) q =
      if k = q then
        some (match lookupKey m k with | some w => min w v | none => v)
      else lookupKey m q := by
  unfold recordSuccess
  cases h : lookupKey m k <;> simp [lookupKey_setKey, h]

theorem lookup_record_comm (m : VersionMap) (a b : String × Version) (q : String) :
    lookupKey (recordSuccess (recordSuccess m a.1 a.2) b.1 b.2) q
      = lookupKey (recordSuccess (recordSuccess m b.1 b.2) a.1 a.2) q := by
  by_cases hab : a.1 = b.1
  · by_cases hq : b.1 = q
    · have hq1 : a.1 = q := hab.trans hq
      simp only [lookupKey_recordSuccess, hab, hq1, hq, if_pos rfl]
      cases h : lookupKey m q <;> simp [h, min_comm, min_right_comm, min_left_comm]
    · have hq1 : ¬ a.1 = q := fun h => hq (hab.symm.trans h)
      simp [lookupKey_recordSuccess, hq, hq1]
  · have hba : ¬ b.1 = a.1 := fun h => hab h.symm
    by_cases hqa : a.1 = q <;> by_cases hqb : b.1 = q
    · exact absurd (hqa.trans hqb.symm) hab
    · simp [lookupKey_recordSuccess, hqa, hqb, hba]
    · simp [lookupKey_recordSuccess, hqa, hqb, hab]
    · simp [lookupKey_recordSuccess, hqa, hqb]

theorem lookup_foldl_record_congr (ls : List (String × Version)) :
    ∀ m1 m2 : VersionMap, (∀ q, lookupKey m1 q = lookupKey m2 q) →
    ∀ q, lookupKey (ls.foldl (fun m p => recordSuccess m p.1 p.2) m1) q
       = lookupKey (ls.foldl (fun m p => recordSuccess m p.1 p.2) m2) q := by
  induction ls with
  | nil => intro m1 m2 h q; exact h q
  | cons a t ih =>
      intro m1 m2 h q
      simp only [List.foldl_cons]
      apply ih
      intro q'
      rw [lookupKey_recordSuccess, lookupKey_recordSuccess, h a.1, h q']

theorem lookup_foldl_record_perm {ls ls' : List (String × Version)} (hp : ls.Perm ls') :
    ∀ (m0 : VersionMap) (q : String),
      lookupKey (ls.foldl (fun m p => recordSuccess m p.1 p.2) m0) q
        = lookupKey (ls'.foldl (fun m p => recordSuccess m p.1 p.2) m0) q := by
  induction hp with
  | nil => intro m0 q; rfl
  | cons x _ ih =>
      intro m0 q
      simp only [List.foldl_cons]
      exact ih (recordSuccess m0 x.1 x.2) q
  | swap x y l =>
      intro m0 q
      simp only [List.foldl_cons]
      exact lookup_foldl_record_congr l _ _ (fun q' => lookup_record_comm m0 y x q') q
  | trans _ _ ih1 ih2 =>
      intro m0 q
      exact (ih1 m0 q).trans (ih2 m0 q)

/-- C5: the per-name minimal-version accumulation of solve's aggregation loop
is order-independent — the aggregator's successful-result step is exactly
`recordSuccess`, folding any permutation of the same successful probe results
yields the same name→version map, and an entry, once present, is only ever
lowered, never raised. -/
theorem minimal_version_reduction_spec :
    (∀ (s : LoopState) (r : Result) (k : String) (v : Version),
      pyTruthyStr r.exception = false → r.item.name = some k → k.isEmpty = false →
      r.item.version = some v → (processResult s r).minv = recordSuccess s.minv k v) ∧
    (∀ (ls ls' : List (String × Version)), ls.Perm ls' →
      ∀ (m0 : VersionMap) (q : String),
        lookupKey (ls.foldl (fun m p => recordSuccess m p.1 p.2) m0) q
          = lookupKey (ls'.foldl (fun m p => recordSuccess m p.1 p.2) m0) q) ∧
    (∀ (m : VersionMap) (k : String) (v : Version) (q : String) (w : Version),
      lookupKey m q = some w →
      ∃ w', lookupKey (recordSuccess m k v) q = some w' ∧ w' ≤ w) := by
  refine ⟨?_, fun ls ls' hp => lookup_foldl_record_perm hp, ?_⟩
  · intro s r k v hexc hname hk hver
    unfold processResult
    rw [hexc, hname, hver]
    simp [hk]
  · intro m k v q w hw
    rw [lookupKey_recordSuccess]
    by_cases h : k = q
    · subst h
      refine ⟨min w v, ?_, Nat.min_le_left w v⟩
      rw [hw]
      simp
    · rw [if_neg h]
      exact ⟨w, hw, le_refl w⟩

theorem minimal_version_reduction_spec_witness :
    lookupKey ([(("a", 3) : String × Version), ("b", 2), ("a", 1)].foldl
        (fun m p => recordSuccess m p.1 p.2) []) "a"
      = lookupKey ([(("a", 1) : String × Version), ("a", 3), ("b", 2)].foldl
        (fun m p => recordSuccess m p.1 p.2) []) "a" :=
  minimal_version_reduction_spec.2.1 [("a", 3), ("b", 2), ("a", 1)]
    [("a", 1), ("a", 3), ("b", 2)] (by decide) [] "a"

/-! ### C7: the inconsistency warning -/

/-- C7 counterexample: the aggregator logs the inconsistency warning on a
failed probe of version 2 for a name whose recorded passing version is 1 —
i.e. when the failed version is HIGHER than the recorded passing one — while
the claim's condition (`specInconsistent`, the failed version being lower
than the recorded passing one) is false there, so the claimed "exactly when"
fails on the code. -/
theorem inconsistency_warning_cex :
    (processResult ⟨3, false, 0, [("a", 1)], 0⟩
        ⟨⟨"a:2", [("a", 2)], false, some "a", some 2⟩, some "Test failed", ""⟩).warnings = 1 ∧
    specInconsistent [("a", 1)]
        ⟨⟨"a:2", [("a", 2)], false, some "a", some 2⟩, some "Test failed", ""⟩ = false := by
  decide

/-- C7 (amended): during probing, the warning counter is incremented —
and the run is not aborted — exactly when a failed result carries a
(name, version) whose version is strictly GREATER than a version already
recorded as passing for that same name; a non-fatal failed result never
changes the cancellation flag or the return value. -/
theorem inconsistency_warning_iff (s : LoopState) (r : Result) :
    ((processResult s r).warnings = s.warnings + 1 ↔
      pyTruthyStr r.exception = true ∧
      ∃ k v w, r.item.name = some k ∧ r.item.version = some v ∧
        lookupKey s.minv k = some w ∧ w < v) ∧
    (r.item.fatal = false →
      (processResult s r).cancel = s.cancel ∧ (processResult s r).rv = s.rv) := by
  constructor
  · unfold processResult
    cases hexc : pyTruthyStr r.exception with
    | false =>
        simp only [Bool.false_eq_true, if_false, false_and, iff_false]
        cases hname : r.item.name with
        | none => simp
        | some k =>
            by_cases hk : k.isEmpty <;> simp only [hk, if_true, if_false]
            · simp
            · cases hver : r.item.version <;> simp
    | true =>
        simp only [if_true, true_and]
        have hwmain : (if inconsistentCheck s.minv r then s.warnings + 1 else s.warnings + 0)
            = s.warnings + (if inconsistentCheck s.minv r then 1 else 0) := by
          by_cases h : inconsistentCheck s.minv r <;> simp [h]
        have hgoal : (s.warnings + (if inconsistentCheck s.minv r then 1 else 0) = s.warnings + 1)
            ↔ inconsistentCheck s.minv r = true := by
          by_cases h : inconsistentCheck s.minv r <;> simp [h]
        have hcheck : inconsistentCheck s.minv r = true ↔
            ∃ k v w, r.item.name = some k ∧ r.item.version = some v ∧
              lookupKey s.minv k = some w ∧ w < v := by
          unfold inconsistentCheck
          cases hname : r.item.name with
          | none => simp
          | some k =>
              cases hver : r.item.version with
              | none => simp
              | some v =>
                  cases hlk : lookupKey s.minv k with
                  | none => simp [hlk]
                  | some w => simp [hlk, decide_eq_true_iff]
        by_cases hf : r.item.fatal <;> simp only [hf, if_true, if_false] <;>
          simpa [hgoal] using hcheck
  · intro hf
    unfold processResult
    cases hexc : pyTruthyStr r.exception with
    | true => simp [hf]
    | false =>
        cases hname : r.item.name with
        | none => simp
        | some k =>
            by_cases hk : k.isEmpty
            · simp [hk]
            · cases hver : r.item.version <;> simp [hk]

theorem inconsistency_warning_iff_witness :
    (processResult ⟨2, false, 0, [("b", 4)], 5⟩
        ⟨⟨"b:6", [("b", 6)], false, some "b", some 6⟩, some "Test failed", ""⟩).warnings
      = 5 + 1 :=
  (inconsistency_warning_iff ⟨2, false, 0, [("b", 4)], 5⟩
      ⟨⟨"b:6", [("b", 6)], false, some "b", some 6⟩, some "Test failed", ""⟩).1.mpr
    ⟨by decide, "b", 6, 4, rfl, rfl, by decide, by decide⟩

/-! ### C8: one result per executed plan -/

theorem runPlan_item (command : String) (item : Plan) (inst test : StepOut) :
    (runPlan command item inst test).item = item := by
  unfold runPlan
  cases inst with
  | raised m => rfl
  | ran rc o =>
      by_cases h : rc ≠ 0
      · simp [h]
      · cases test with
        | raised m => simp [h]
        | ran rc2 o2 =>
            by_cases h2 : rc2 ≠ 0 <;> simp [h, h2]

/-- C8 counterexample: a worker that dequeues a plan while the cancellation
flag is set exits without putting any result on the channel, so that
dequeued plan goes unanswered — the claimed "exactly one Result for every
dequeued plan" fails. -/
theorem worker_result_cex :
    workerLoop "make test" [some (getMaxPlan [("a", [1])])] [true] [] = [] ∧
    dequeuedPlans [some (getMaxPlan [("a", [1])])] [true] = [getMaxPlan [("a", [1])]] := by
  decide

theorem worker_results_eq_started (command : String) :
    ∀ (items : List (Option Plan)) (cs : List Bool) (os : List (StepOut × StepOut)),
      (workerLoop command items cs os).map Result.item = startedPlans items cs := by
  intro items
  induction items with
  | nil => intro cs os; rfl
  | cons hd t ih =>
      intro cs os
      cases hd with
      | none => rfl
      | some p =>
          unfold workerLoop startedPlans
          cases hc : cs.headD false
          · simp only [hc, Bool.false_eq_true, if_false, List.map_cons, runPlan_item]
            rw [ih cs.tail os.tail]
          · simp only [hc, if_true, List.map_nil]

theorem dequeued_eq_started_or_drop :
    ∀ (items : List (Option Plan)) (cs : List Bool),
      dequeuedPlans items cs = startedPlans items cs ∨
        ∃ p, dequeuedPlans items cs = startedPlans items cs ++ [p] := by
  intro items
  induction items with
  | nil => intro cs; left; rfl
  | cons hd t ih =>
      intro cs
      cases hd with
      | none => left; rfl
      | some p =>
          unfold dequeuedPlans startedPlans
          cases hc : cs.headD false
          · simp only [hc, Bool.false_eq_true, if_false]
            rcases ih cs.tail with h | ⟨q, h⟩
            · left
              rw [h]
            · right
              exact ⟨q, by rw [h, List.cons_append]⟩
          · simp only [hc, if_true]
            right
            exact ⟨p, rfl⟩

/-- C8 (amended): under any cancellation-flag schedule, the results a worker
puts on the channel are — in order, one each, their `item` fields being those
plans — exactly the plans it dequeued while the cancellation flag was unset
(the shutdown sentinel excluded), regardless of the outcomes of the install
step and the test command, so a failure never terminates the loop; and the
full dequeued list exceeds the answered one by at most a single plan: the
one dequeued after the flag was set, which is dropped without a `Result`. -/
theorem worker_one_result_per_plan (command : String) (items : List (Option Plan))
    (cs : List Bool) (os : List (StepOut × StepOut)) :
    (workerLoop command items cs os).map Result.item = startedPlans items cs ∧
    (workerLoop command items cs os).length = (startedPlans items cs).length ∧
    (dequeuedPlans items cs = startedPlans items cs ∨
      ∃ p, dequeuedPlans items cs = startedPlans items cs ++ [p]) := by
  have hmap := worker_results_eq_started command items cs os
  exact ⟨hmap, by rw [← hmap, List.length_map], dequeued_eq_started_or_drop items cs⟩

theorem worker_one_result_per_plan_witness :
    (workerLoop "make test"
        [some (getMaxPlan [("a", [1])]), some (getMinPlan [("a", [1])]),
         some (getMaxPlan [("a", [2])])]
        [false, true] [(StepOut.ran 1 "", StepOut.ran 0 "")]).map Result.item
      = startedPlans
        [some (getMaxPlan [("a", [1])]), some (getMinPlan [("a", [1])]),
         some (getMaxPlan [("a", [2])])]
        [false, true] :=
  (worker_one_result_per_plan "make test"
    [some (getMaxPlan [("a", [1])]), some (getMinPlan [("a", [1])]),
     some (getMaxPlan [("a", [2])])]
    [false, true] [(StepOut.ran 1 "", StepOut.ran 0 "")]).1

/-! ### C6: resolution errors on empty candidate lists -/

theorem processFixed_error_of_empty (registry : String → List Version)
    (reqs : List Req) :
    ∀ acc : Catalog,
      (∃ r ∈ reqs, r.applicable = true ∧ (registry r.name).filter r.spec = []) →
      ∃ e, processFixed registry acc reqs = .error e := by
  induction reqs with
  | nil =>
      rintro acc ⟨r, hr, -, -⟩
      exact absurd hr (List.not_mem_nil r)
  | cons a t ih =>
      rintro acc ⟨r, hr, happ, hemp⟩
      unfold processFixed
      by_cases ha : a.applicable = false
      · rw [if_pos ha]
        rcases List.mem_cons.mp hr with rfl | hr'
        · rw [happ] at ha; cases ha
        · exact ih acc ⟨r, hr', happ, hemp⟩
      · rw [if_neg ha]
        by_cases hfe : (registry a.name).filter a.spec = []
        · rw [if_pos hfe]
          exact ⟨_, rfl⟩
        · rw [if_neg hfe]
          rcases List.mem_cons.mp hr with rfl | hr'
          · exact absurd hemp hfe
          · exact ih _ ⟨r, hr', happ, hemp⟩

theorem processVariable_error_of_empty (registry : String → List Version)
    (extendL : List String) (fast : Bool) (reqs : List Req) :
    ∀ acc : Catalog,
      (∃ r ∈ reqs, r.applicable = true ∧ candidatesFor registry extendL r = []) →
      ∃ e, processVariable registry extendL fast acc reqs = .error e := by
  induction reqs with
  | nil =>
      rintro acc ⟨r, hr, -, -⟩
      exact absurd hr (List.not_mem_nil r)
  | cons a t ih =>
      rintro acc ⟨r, hr, happ, hemp⟩
      unfold processVariable
      by_cases ha : a.applicable = false
      · rw [if_pos ha]
        rcases List.mem_cons.mp hr with rfl | hr'
        · rw [happ] at ha; cases ha
        · exact ih acc ⟨r, hr', happ, hemp⟩
      · rw [if_neg ha]
        by_cases hfe : candidatesFor registry extendL a = []
        · rw [if_pos hfe]
          exact ⟨_, rfl⟩
        · rw [if_neg hfe]
          rcases List.mem_cons.mp hr with rfl | hr'
          · exact absurd hemp hfe
          · exact ih _ ⟨r, hr', happ, hemp⟩

/-- C6 counterexample: a variable requirement whose constraint filter matches
zero versions does NOT make catalog construction fail when its name is in the
override list — the full registry list is used instead — refuting the claim
that construction fails whenever a requirement filters down to zero
versions. -/
theorem resolution_error_cex :
    ((fun _ => [1, 2] : String → List Version) "a").filter (fun _ => false) = [] ∧
    buildVersions (fun _ => [1, 2]) [] [⟨"a", true, fun _ => false⟩] ["a"] false
      = .ok [("a", [1, 2])] := by
  exact ⟨rfl, rfl⟩

/-- C6 (amended): catalog construction fails with a resolution error whenever
an applicable requirement's candidate list is empty — the constraint-filtered
registry list for fixed requirements and for non-overridden variable
requirements, the full registry list for overridden variable requirements —
and this happens during `buildVersions`, before any plan exists. -/
theorem resolution_error_on_empty (registry : String → List Version)
    (fixedReqs varReqs : List Req) (extendL : List String) (fast : Bool)
    (h : (∃ r ∈ fixedReqs, r.applicable = true ∧ (registry r.name).filter r.spec = []) ∨
         (∃ r ∈ varReqs, r.applicable = true ∧ candidatesFor registry extendL r = [])) :
    ∃ e, buildVersions registry fixedReqs varReqs extendL fast = .error e := by
  unfold buildVersions
  rcases h with hf | hv
  · obtain ⟨e, he⟩ := processFixed_error_of_empty registry fixedReqs [] hf
    rw [he]
    exact ⟨e, rfl⟩
  · cases hpf : processFixed registry [] fixedReqs with
    | error e => exact ⟨e, rfl⟩
    | ok acc => exact processVariable_error_of_empty registry extendL fast varReqs acc hv

theorem resolution_error_on_empty_witness :
    ∃ e, buildVersions (fun _ => ([] : List Version)) [⟨"a", true, fun _ => true⟩] [] [] false
      = .error e :=
  resolution_error_on_empty (fun _ => []) [⟨"a", true, fun _ => true⟩] [] [] false
    (Or.inl ⟨⟨"a", true, fun _ => true⟩, List.mem_cons_self _ _, rfl, rfl⟩)

/-! ### C10: override widens only variable requirements -/

theorem processFixed_singleton (registry : String → List Version) :
    ∀ (reqs : List Req) (acc out : Catalog),
      processFixed registry acc reqs = .ok out →
      (∀ k l, lookupKey acc k = some l → ∃ v, l = [v]) →
      ∀ k l, lookupKey out k = some l → ∃ v, l = [v] := by
  intro reqs
  induction reqs with
  | nil =>
      intro acc out hok hacc k l hl
      cases hok
      exact hacc k l hl
  | cons a t ih =>
      intro acc out hok hacc k l hl
      unfold processFixed at hok
      by_cases ha : a.applicable = false
      · rw [if_pos ha] at hok
        exact ih acc out hok hacc k l hl
      · rw [if_neg ha] at hok
        by_cases hfe : (registry a.name).filter a.spec = []
        · rw [if_pos hfe] at hok; cases hok
        · rw [if_neg hfe] at hok
          refine ih _ out hok ?_ k l hl
          intro k' l' hl'
          rw [lookupKey_setKey] at hl'
          by_cases hk : a.name = k'
          · rw [if_pos hk] at hl'
            exact ⟨((registry a.name).filter a.spec).getLastD 0, (Option.some_inj.mp hl').symm⟩
          · rw [if_neg hk] at hl'
            exact hacc k' l' hl'

theorem processVariable_lookup_untouched (registry : String → List Version)
    (extendL : List String) (fast : Bool) (n : String) :
    ∀ (reqs : List Req) (acc out : Catalog),
      processVariable registry extendL fast acc reqs = .ok out →
      (∀ r ∈ reqs, r.applicable = true → r.name ≠ n) →
      lookupKey out n = lookupKey acc n := by
  intro reqs
  induction reqs with
  | nil =>
      intro acc out hok _
      cases hok
      rfl
  | cons a t ih =>
      intro acc out hok hn
      unfold processVariable at hok
      by_cases ha : a.applicable = false
      · rw [if_pos ha] at hok
        exact ih acc out hok fun r hr => hn r (List.mem_cons_of_mem a hr)
      · rw [if_neg ha] at hok
        by_cases hfe : candidatesFor registry extendL a = []
        · rw [if_pos hfe] at hok; cases hok
        · rw [if_neg hfe] at hok
          have hstep := ih _ out hok fun r hr => hn r (List.mem_cons_of_mem a hr)
          rw [hstep, lookupKey_setKey,
            if_neg (hn a (List.mem_cons_self a t) (Bool.of_not_eq_false ha))]

/-- C10: the override list widens only variable requirements to the full
registry release list; a name carried only by fixed requirements is always
constraint-filtered and resolved to a single version, unchanged by the
override list — even when that name is in it. -/
theorem override_spares_fixed (registry : String → List Version)
    (fixedReqs varReqs : List Req) (extendL extendL' : List String) (fast : Bool)
    (n : String) (accF cat cat' : Catalog)
    (hpf : processFixed registry [] fixedReqs = .ok accF)
    (hb : buildVersions registry fixedReqs varReqs extendL fast = .ok cat)
    (hb' : buildVersions registry fixedReqs varReqs extendL' fast = .ok cat')
    (hvar : ∀ r ∈ varReqs, r.applicable = true → r.name ≠ n) :
    lookupKey cat n = lookupKey accF n ∧
    lookupKey cat' n = lookupKey cat n ∧
    (∀ l, lookupKey cat n = some l → ∃ v, l = [v]) ∧
    (∀ r : Req, (r.name ∈ extendL ∨ "*" ∈ extendL) →
      candidatesFor registry extendL r = registry r.name) := by
  unfold buildVersions at hb hb'
  rw [hpf] at hb hb'
  have h1 : lookupKey cat n = lookupKey accF n :=
    processVariable_lookup_untouched registry extendL fast n varReqs accF cat hb hvar
  have h1' : lookupKey cat' n = lookupKey accF n :=
    processVariable_lookup_untouched registry extendL' fast n varReqs accF cat' hb' hvar
  refine ⟨h1, h1'.trans h1.symm, ?_, ?_⟩
  · intro l hl
    rw [h1] at hl
    exact processFixed_singleton registry fixedReqs [] accF hpf
      (fun k l' hl' => by cases hl') n l hl
  · intro r hr
    unfold candidatesFor
    rw [if_pos hr]

theorem override_spares_fixed_witness :
    lookupKey [("a", [4]), ("b", [4, 5])] "a" = lookupKey [("a", [4])] "a" :=
  (override_spares_fixed (fun _ => [4, 5]) [⟨"a", true, fun v => v = 4⟩]
    [⟨"b", true, fun _ => true⟩] ["a"] [] false "a"
    [("a", [4])] [("a", [4]), ("b", [4, 5])] [("a", [4]), ("b", [4, 5])]
    rfl rfl rfl
    (by
      intro r hr happ
      rcases List.mem_cons.mp hr with rfl | hr'
      · decide
      · exact absurd hr' (List.not_mem_nil r))).1

/-! ### C1: dispatch ordering of the phases -/

theorem dispatchBFR_dispatch_prefix (ds : List Plan) (t : List Event) :
    dispatchBeforeFirstReceive (ds.map Event.dispatch ++ t)
      = ds ++ dispatchBeforeFirstReceive t := by
  induction ds with
  | nil => rfl
  | cons d ds ih =>
      unfold dispatchBeforeFirstReceive at *
      simp only [List.map_cons, List.cons_append, List.takeWhile_cons, List.filterMap_cons,
        if_true]
      rw [ih]

theorem dispatchBFR_receive_head (r : Result) (t : List Event) :
    dispatchBeforeFirstReceive (Event.receive r :: t) = [] := by
  unfold dispatchBeforeFirstReceive
  simp [List.takeWhile_cons]

theorem mainLoop_recvd_nil {s : LoopState} {stream : List Result}
    (h : (mainLoop s stream).recvd = []) : (mainLoop s stream).state = s := by
  cases stream with
  | nil => rfl
  | cons r rest =>
      unfold mainLoop at h ⊢
      by_cases hg : s.outstanding = 0 ∨ s.cancel
      · rw [if_pos hg]
      · rw [if_neg hg] at h
        cases h

theorem solvePhase3_events_of_minv_nil (vs : Catalog) (fast : Bool) (evs : List Event)
    (o : LoopOut) (h : o.state.minv = []) :
    (solvePhase3 vs fast evs o).events = evs := by
  unfold solvePhase3
  by_cases hb : o.blocked
  · rw [if_pos hb]
  · rw [if_neg hb, if_neg (by simp [h])]

theorem solvePhase3_events_append (vs : Catalog) (fast : Bool) (evs : List Event)
    (o : LoopOut) : ∃ t, (solvePhase3 vs fast evs o).events = evs ++ t := by
  unfold solvePhase3
  by_cases hb : o.blocked
  · rw [if_pos hb]
    exact ⟨[], (List.append_nil evs).symm⟩
  · rw [if_neg hb]
    by_cases hm : ¬ fast = true ∧ o.state.minv ≠ []
    · rw [if_pos hm]
      cases hrest : o.rest with
      | nil => exact ⟨[Event.dispatch (jointPlan vs o.state.minv)], rfl⟩
      | cons r tl =>
          exact ⟨[Event.dispatch (jointPlan vs o.state.minv), Event.receive r],
            by cases hpe : pyTruthyStr r.exception <;> simp [hpe]⟩
    · rw [if_neg hm]
      exact ⟨[], (List.append_nil evs).symm⟩

theorem dispatchBFR_nil : dispatchBeforeFirstReceive [] = [] := rfl

theorem dispatchBFR_all_dispatch (ds : List Plan) :
    dispatchBeforeFirstReceive (ds.map Event.dispatch) = ds := by
  have h := dispatchBFR_dispatch_prefix ds []
  rw [List.append_nil, dispatchBFR_nil, List.append_nil] at h
  exact h

theorem dispatchBFR_receive_cons_append (r : Result) (rs : List Result) (t : List Event) :
    dispatchBeforeFirstReceive (List.map Event.receive (r :: rs) ++ t) = [] := by
  rw [List.map_cons, List.cons_append, dispatchBFR_receive_head]

theorem solveModel_eq (vs : Catalog) (fast : Bool) (stream : List Result) :
    solveModel vs fast stream
      = solvePhase3 vs fast
          ((getMaxPlan vs :: (if fast then [getMinPlan vs] else getIntermediatePlans vs)).map
              Event.dispatch
            ++ (mainLoop
                ⟨(getMaxPlan vs :: (if fast then [getMinPlan vs]
                    else getIntermediatePlans vs)).length, false, 0, [], 0⟩
                stream).recvd.map Event.receive)
          (mainLoop
            ⟨(getMaxPlan vs :: (if fast then [getMinPlan vs]
                else getIntermediatePlans vs)).length, false, 0, [], 0⟩
            stream) := rfl

/-- C1 (amended): the max plan and every phase-2 plan (the min plan in fast
mode, all intermediate plans in thorough mode) are enqueued together up
front: the all-dispatch prefix of any run's trace is exactly the max plan
followed by all phase-2 plans, before any result is received — so
intermediate plans are dispatched even in runs where the max plan fails. -/
theorem phase2_dispatched_upfront (vs : Catalog) (fast : Bool) (stream : List Result) :
    dispatchBeforeFirstReceive (solveModel vs fast stream).events
      = getMaxPlan vs :: (if fast then [getMinPlan vs] else getIntermediatePlans vs) := by
  rw [solveModel_eq]
  cases hrec : (mainLoop
      ⟨(getMaxPlan vs :: (if fast then [getMinPlan vs]
          else getIntermediatePlans vs)).length, false, 0, [], 0⟩
      stream).recvd with
  | nil =>
      have hminv : (mainLoop
          ⟨(getMaxPlan vs :: (if fast then [getMinPlan vs]
              else getIntermediatePlans vs)).length, false, 0, [], 0⟩
          stream).state.minv = [] := by
        rw [mainLoop_recvd_nil hrec]
      rw [solvePhase3_events_of_minv_nil _ _ _ _ hminv]
      simpa using dispatchBFR_all_dispatch
        (getMaxPlan vs :: (if fast then [getMinPlan vs] else getIntermediatePlans vs))
  | cons r rs =>
      obtain ⟨t, ht⟩ := solvePhase3_events_append vs fast
        ((getMaxPlan vs :: (if fast then [getMinPlan vs]
            else getIntermediatePlans vs)).map Event.dispatch
          ++ (mainLoop
              ⟨(getMaxPlan vs :: (if fast then [getMinPlan vs]
                  else getIntermediatePlans vs)).length, false, 0, [], 0⟩
              stream).recvd.map Event.receive)
        (mainLoop
          ⟨(getMaxPlan vs :: (if fast then [getMinPlan vs]
              else getIntermediatePlans vs)).length, false, 0, [], 0⟩
          stream)
      rw [hrec] at ht
      rw [ht, List.append_assoc, dispatchBFR_dispatch_prefix,
        dispatchBFR_receive_cons_append, List.append_nil]

/-- C1 counterexample: in a thorough run over the catalog {a: [1, 2]}, an
intermediate (non-fatal) plan is dispatched before any result has been
received, and in a run whose max plan fails the intermediate plan was
dispatched all the same — refuting both the claimed phase sequencing and the
claimed "zero intermediate plans dispatched on baseline failure". -/
theorem phase_sequencing_cex :
    dispatchBeforeFirstReceive (solveModel [("a", [1, 2])] false []).events
      = [getMaxPlan [("a", [1, 2])],
         ⟨"a:1", [("a", 1)], false, some "a", some 1⟩] ∧
    (⟨"a:1", [("a", 1)], false, some "a", some 1⟩ : Plan).fatal = false ∧
    Event.dispatch ⟨"a:1", [("a", 1)], false, some "a", some 1⟩ ∈
      (solveModel [("a", [1, 2])] false
        [⟨getMaxPlan [("a", [1, 2])], some "boom", ""⟩]).events := by
  decide

theorem processResult_rv_eq (s : LoopState) (r : Result) :
    (processResult s r).rv =
      if pyTruthyStr r.exception = true ∧ r.item.fatal = true then 1 else s.rv := by
  unfold processResult
  by_cases he : pyTruthyStr r.exception = true
  · rw [if_pos he]
    by_cases hf : r.item.fatal = true <;> simp [he, hf]
  · rw [if_neg he]
    cases hn : r.item.name with
    | none => simp [he]
    | some k =>
        by_cases hk : k.isEmpty
        · simp [he, hk]
        · cases hv : r.item.version <;> simp [he, hk]

theorem mainLoop_rv_le (stream : List Result) :
    ∀ s : LoopState, s.rv ≤ 1 → (mainLoop s stream).state.rv ≤ 1 := by
  induction stream with
  | nil => intro s h; exact h
  | cons r rest ih =>
      intro s h
      unfold mainLoop
      by_cases hg : s.outstanding = 0 ∨ s.cancel
      · rw [if_pos hg]; exact h
      · rw [if_neg hg]
        refine ih (processResult { s with outstanding := s.outstanding - 1 } r) ?_
        rw [processResult_rv_eq]
        by_cases hc : pyTruthyStr r.exception = true ∧ r.item.fatal = true <;> simp [hc, h]

theorem mainLoop_rv_one (stream : List Result) :
    ∀ s : LoopState, s.rv = 0 → (mainLoop s stream).state.rv = 1 →
      ∃ r ∈ (mainLoop s stream).recvd,
        pyTruthyStr r.exception = true ∧ r.item.fatal = true := by
  induction stream with
  | nil =>
      intro s h0 h1
      rw [show (mainLoop s []).state = s from rfl, h0] at h1
      cases h1
  | cons r rest ih =>
      intro s h0 h1
      unfold mainLoop at h1 ⊢
      by_cases hg : s.outstanding = 0 ∨ s.cancel
      · rw [if_pos hg] at h1 ⊢
        rw [h0] at h1
        cases h1
      · rw [if_neg hg] at h1 ⊢
        by_cases hc : pyTruthyStr r.exception = true ∧ r.item.fatal = true
        · exact ⟨r, List.mem_cons_self _ _, hc⟩
        · have h0' : (processResult { s with outstanding := s.outstanding - 1 } r).rv = 0 := by
            rw [processResult_rv_eq, if_neg hc]
            exact h0
          obtain ⟨r', hr', hp'⟩ := ih (processResult { s with outstanding := s.outstanding - 1 } r) h0' h1
          exact ⟨r', List.mem_cons_of_mem r hr', hp'⟩

theorem solvePhase3_rv_cases (vs : Catalog) (fast : Bool) (evs : List Event)
    (o : LoopOut) :
    ∀ n, (solvePhase3 vs fast evs o).rv = some n → n = 2 ∨ n = o.state.rv := by
  intro n hn
  unfold solvePhase3 at hn
  by_cases hb : o.blocked
  · rw [if_pos hb] at hn; cases hn
  · rw [if_neg hb] at hn
    by_cases hm : ¬ fast = true ∧ o.state.minv ≠ []
    · rw [if_pos hm] at hn
      cases hrest : o.rest with
      | nil => rw [hrest] at hn; cases hn
      | cons r tl =>
          rw [hrest] at hn
          cases hpe : pyTruthyStr r.exception
          · right
            simp [hpe] at hn
            exact hn.symm
          · left
            simp [hpe] at hn
            omega
    · rw [if_neg hm] at hn
      right
      exact (Option.some_inj.mp hn).symm

theorem solvePhase3_rv_two_iff (vs : Catalog) (fast : Bool) (evs : List Event)
    (o : LoopOut) (h : o.state.rv ≤ 1) :
    ((solvePhase3 vs fast evs o).rv = some 2 ↔
      ∃ r, (solvePhase3 vs fast evs o).phase3 = some r ∧ pyTruthyStr r.exception = true) := by
  unfold solvePhase3
  by_cases hb : o.blocked
  · rw [if_pos hb]; simp
  · rw [if_neg hb]
    by_cases hm : ¬ fast = true ∧ o.state.minv ≠ []
    · rw [if_pos hm]
      cases hrest : o.rest with
      | nil => simp
      | cons r tl =>
          cases hpe : pyTruthyStr r.exception
          · simp only [hpe, Bool.false_eq_true, if_false]
            constructor
            · intro hrv
              have : o.state.rv = 2 := by
                simpa using hrv
              omega
            · rintro ⟨r', hr', hp'⟩
              rw [← Option.some_inj.mp hr'] at hp'
              rw [hpe] at hp'
              cases hp'
          · simp [hpe]
    · rw [if_neg hm]
      constructor
      · intro hrv
        have : o.state.rv = 2 := by simpa using hrv
        omega
      · rintro ⟨r', hr', -⟩
        cases hr'

/-- C2 counterexample: a run in which the max plan fails can still return
exit status 2 — an intermediate success completed before the baseline
failure, so the joint-verification phase runs, and the stale failing result
left in the channel by cancellation is consumed as its answer. -/
theorem exit_status_cex :
    (solveModel [("a", [1, 2, 3])] false
        [⟨⟨"a:1", [("a", 1)], false, some "a", some 1⟩, none, ""⟩,
         ⟨getMaxPlan [("a", [1, 2, 3])], some "boom", ""⟩,
         ⟨⟨"a:2", [("a", 2)], false, some "a", some 2⟩, some "boom", ""⟩]).rv = some 2 ∧
    Event.receive ⟨getMaxPlan [("a", [1, 2, 3])], some "boom", ""⟩ ∈
      (solveModel [("a", [1, 2, 3])] false
        [⟨⟨"a:1", [("a", 1)], false, some "a", some 1⟩, none, ""⟩,
         ⟨getMaxPlan [("a", [1, 2, 3])], some "boom", ""⟩,
         ⟨⟨"a:2", [("a", 2)], false, some "a", some 2⟩, some "boom", ""⟩]).events := by
  decide

/-- C2 (amended): solve returns 2 exactly when the single result consumed
after dispatching the joint-verification plan carries an error (which, after
a cancellation race, may be a stale intermediate result rather than the
joint plan's own — so a run whose max plan failed can still return 2); every
returned status is 0, 1 or 2; and a returned status of 1 means the
aggregation loop consumed a failing fatal result (the baseline max plan, or
the fast-mode min plan). -/
theorem exit_status_spec (vs : Catalog) (fast : Bool) (stream : List Result) :
    ((solveModel vs fast stream).rv = some 2 ↔
      ∃ r, (solveModel vs fast stream).phase3 = some r ∧
        pyTruthyStr r.exception = true) ∧
    (∀ n, (solveModel vs fast stream).rv = some n → n = 0 ∨ n = 1 ∨ n = 2) ∧
    ((solveModel vs fast stream).rv = some 1 →
      ∃ r ∈ (mainLoop
          ⟨(getMaxPlan vs :: (if fast then [getMinPlan vs]
              else getIntermediatePlans vs)).length, false, 0, [], 0⟩ stream).recvd,
        pyTruthyStr r.exception = true ∧ r.item.fatal = true) := by
  have hle : (mainLoop
      ⟨(getMaxPlan vs :: (if fast then [getMinPlan vs]
          else getIntermediatePlans vs)).length, false, 0, [], 0⟩ stream).state.rv ≤ 1 :=
    mainLoop_rv_le stream _ (Nat.zero_le 1)
  refine ⟨?_, ?_, ?_⟩
  · rw [solveModel_eq]
    exact solvePhase3_rv_two_iff vs fast _ _ hle
  · intro n hn
    rw [solveModel_eq] at hn
    rcases solvePhase3_rv_cases vs fast _ _ n hn with rfl | h
    · right; right; rfl
    · have hn1 : n ≤ 1 := h ▸ hle
      omega
  · intro h1
    rw [solveModel_eq] at h1
    rcases solvePhase3_rv_cases vs fast _ _ 1 h1 with h2 | h2
    · exact absurd h2 (by decide)
    · exact mainLoop_rv_one stream _ rfl h2.symm

theorem exit_status_spec_witness :
    (solveModel [("a", [1, 2])] false
        [⟨getMaxPlan [("a", [1, 2])], none, ""⟩,
         ⟨⟨"a:1", [("a", 1)], false, some "a", some 1⟩, none, ""⟩,
         ⟨jointPlan [("a", [1, 2])] [("a", 1)], some "boom", ""⟩]).rv = some 2 :=
  (exit_status_spec [("a", [1, 2])] false
      [⟨getMaxPlan [("a", [1, 2])], none, ""⟩,
       ⟨⟨"a:1", [("a", 1)], false, some "a", some 1⟩, none, ""⟩,
       ⟨jointPlan [("a", [1, 2])] [("a", 1)], some "boom", ""⟩]).1.mpr
    ⟨⟨jointPlan [("a", [1, 2])] [("a", 1)], some "boom", ""⟩, by decide, by decide⟩

theorem solvePhase3_suggestions_eq (vs : Catalog) (fast : Bool) (evs : List Event)
    (o : LoopOut) (sugg : VersionMap)
    (h : (solvePhase3 vs fast evs o).suggestions = some sugg) :
    sugg = narrowingSuggestions vs o.state.minv ∧
    (solvePhase3 vs fast evs o).minvFinal = o.state.minv := by
  unfold solvePhase3 at h ⊢
  by_cases hb : o.blocked
  · rw [if_pos hb] at h; cases h
  · rw [if_neg hb] at h ⊢
    by_cases hm : ¬ fast = true ∧ o.state.minv ≠ []
    · rw [if_pos hm] at h ⊢
      cases hrest : o.rest with
      | nil =>
          rw [hrest] at h
          simp at h
      | cons r tl =>
          rw [hrest] at h
          cases hpe : pyTruthyStr r.exception
          · simp only [hpe, Bool.false_eq_true, if_false] at h ⊢
            exact ⟨(Option.some_inj.mp h).symm, trivial⟩
          · simp [hpe] at h
    · rw [if_neg hm] at h; cases h

/-- C9: when the joint-verification plan succeeds, the emitted narrowing
suggestions are exactly the entries of the discovered minimal-version map
whose version differs from the first (floor) element of that name's catalog
candidate list — one suggestion per differing name — and the suggestion list
is empty (the run prints "Everything is fine." instead) exactly when no name
differs. -/
theorem joint_success_suggestions (vs : Catalog) (fast : Bool) (stream : List Result)
    (sugg : VersionMap)
    (h : (solveModel vs fast stream).suggestions = some sugg) :
    sugg = narrowingSuggestions vs (solveModel vs fast stream).minvFinal ∧
    (∀ k v, (k, v) ∈ sugg ↔
      (k, v) ∈ (solveModel vs fast stream).minvFinal ∧
        ((lookupKey vs k).getD []).headD 0 ≠ v) ∧
    (sugg = [] ↔
      ∀ p ∈ (solveModel vs fast stream).minvFinal,
        ((lookupKey vs p.1).getD []).headD 0 = p.2) := by
  rw [solveModel_eq] at h ⊢
  obtain ⟨h1, h2⟩ := solvePhase3_suggestions_eq vs fast _ _ sugg h
  rw [h2, h1]
  refine ⟨rfl, ?_, ?_⟩
  · intro k v
    unfold narrowingSuggestions
    rw [List.mem_filter]
    simp [bne_iff_ne]
  · unfold narrowingSuggestions
    rw [List.filter_eq_nil_iff]
    simp [bne_iff_ne]

theorem joint_success_suggestions_witness :
    ([(("a", 2) : String × Version)]
        = narrowingSuggestions [("a", [1, 2, 3]), ("b", [5])]
          (solveModel [("a", [1, 2, 3]), ("b", [5])] false
            [⟨getMaxPlan [("a", [1, 2, 3]), ("b", [5])], none, ""⟩,
             ⟨⟨"a:2", [("a", 2), ("b", 5)], false, some "a", some 2⟩, none, ""⟩,
             ⟨⟨"a:1", [("a", 1), ("b", 5)], false, some "a", some 1⟩, some "boom", ""⟩,
             ⟨⟨"min", [("a", 2), ("b", 5)], true, none, none⟩, none, ""⟩]).minvFinal) :=
  (joint_success_suggestions [("a", [1, 2, 3]), ("b", [5])] false
      [⟨getMaxPlan [("a", [1, 2, 3]), ("b", [5])], none, ""⟩,
       ⟨⟨"a:2", [("a", 2), ("b", 5)], false, some "a", some 2⟩, none, ""⟩,
       ⟨⟨"a:1", [("a", 1), ("b", 5)], false, some "a", some 1⟩, some "boom", ""⟩,
       ⟨⟨"min", [("a", 2), ("b", 5)], true, none, none⟩, none, ""⟩]
      [("a", 2)] (by decide)).1
